import Mathlib

/-!
Verification development for the hard (short-range) integrator layer of a
hybrid N-body code (src/src/hard.hpp).  Real-number quantities of the C++
code (PS::F64) are embedded as rationals; the square root used by the code
and the changeover-weight kernels living in headers outside this repository
are carried as explicit function parameters in the environment record.
-/

namespace HardInt

/-- Three-component force/position vector, embedding PS::F64vec. -/
structure Vec3 where
  x : ℚ
  y : ℚ
  z : ℚ
deriving DecidableEq, Repr

instance : Add Vec3 := ⟨fun a b => ⟨a.x + b.x, a.y + b.y, a.z + b.z⟩⟩

instance : Sub Vec3 := ⟨fun a b => ⟨a.x - b.x, a.y - b.y, a.z - b.z⟩⟩

instance : Neg Vec3 := ⟨fun a => ⟨-a.x, -a.y, -a.z⟩⟩

instance : Zero Vec3 := ⟨⟨0, 0, 0⟩⟩

instance : SMul ℚ Vec3 := ⟨fun c v => ⟨c * v.x, c * v.y, c * v.z⟩⟩

/-- Dot product of two vectors, embedding operator* of PS::F64vec. -/
def Vec3.dot (a b : Vec3) : ℚ := a.x * b.x + a.y * b.y + a.z * b.z

/-- ChangeOver state: committed inner/outer blending radii plus the staged
radius multiplier.  Modelled from the spec: ChangeoverState carries inner and
outer blending radii and an optional pending r scale multiplier (the class
itself lives in a header outside this repository). -/
structure ChangeOver where
  r_in : ℚ
  r_out : ℚ
  r_scale_next : ℚ
deriving DecidableEq, Repr

/-- Accessor for the committed inner radius. -/
def ChangeOver.getRin (c : ChangeOver) : ℚ := c.r_in

/-- Accessor for the committed outer radius. -/
def ChangeOver.getRout (c : ChangeOver) : ℚ := c.r_out

/-- Construction of a fresh changeover function from two radii, embedding
ChangeOver::setR with no staged multiplier. -/
def ChangeOver.setR (rin rout : ℚ) : ChangeOver := ⟨rin, rout, 1⟩

/-- Modelled from the spec: updateWithRScale commits the staged radii and
resets the multiplier to 1 (spec section 3, ChangeoverState); the scaled radii
match the chinew and chjnew construction in calcAccChangeOverCorrection. -/
def ChangeOver.updateWithRScale (c : ChangeOver) : ChangeOver :=
  ⟨c.r_in * c.r_scale_next, c.r_out * c.r_scale_next, 1⟩

/-- Hard-particle record: the fields of PtclHard / the soft mirror that the
code under verification reads and writes.  The status.d and mass_bk.d union
views are the rational fields status and mass_bk. -/
structure Particle where
  mass : ℚ
  pos : Vec3
  vel : Vec3
  acc : Vec3
  pot_tot : ℚ
  r_search : ℚ
  status : ℚ
  mass_bk : ℚ
  id : ℤ
  adr_org : ℤ
  changeover : ChangeOver
deriving DecidableEq, Repr

/-- Default particle used when indexing past the end of a buffer. -/
def pzero : Particle :=
  { mass := 0, pos := 0, vel := 0, acc := 0, pot_tot := 0, r_search := 0,
    status := 0, mass_bk := 0, id := 0, adr_org := 0, changeover := ⟨0, 0, 1⟩ }

instance : Inhabited Particle := ⟨pzero⟩

/-- Environment record: the HardManager parameters read by the verified code,
together with the numeric kernels supplied by headers outside this repository:
sqrtQ embeds the C sqrt, and accW embeds ChangeOver::calcAcc0WTwo.  Modelled
from the spec: the changeover weight is a smooth per-pair blending factor
(spec section 2, ChangeoverFunction); its exact polynomial is not part of this
repository, so it is kept abstract here. -/
structure Env where
  energy_error_max : ℚ
  r_in_base : ℚ
  r_out_base : ℚ
  eps_sq : ℚ
  n_split : ℕ
  sqrtQ : ℚ → ℚ
  accW : ChangeOver → ChangeOver → ℚ → ℚ

/-- Modelled from the spec: a one-sided changeover blending weight that is 0
inside the inner radius, 1 outside the outer radius, and ramps linearly in
between (spec section 2: smooth blending between pure Newtonian and
softened/cut force within a radius interval).  Used only to instantiate the
abstract weight in concrete witnesses. -/
def rampW (c : ChangeOver) (r : ℚ) : ℚ :=
  if r ≤ c.r_in then 0 else if c.r_out ≤ r then 1 else (r - c.r_in) / (c.r_out - c.r_in)

/-- Modelled from the spec: the two-sided acceleration weight of a pair,
taken as the mean of the two one-sided weights. -/
def accWModel (ci cj : ChangeOver) (r : ℚ) : ℚ := (rampW ci r + rampW cj r) / 2

/-- Pairwise correction primitive, embedding
calcAccPotShortWithLinearCutoff(Tpi, const Ptcl) of hard.hpp (default build,
without the ONLY_SOFT branch): updates the potential according to the status
of the source and corrects the acceleration from the linear cutoff to the
changeover-weighted short-range force. -/
def calcAccPotShortWithLinearCutoff (env : Env) (pi pj : Particle) : Particle :=
  let dr := pi.pos - pj.pos
  let dr2 := dr.dot dr
  let dr2_eps := dr2 + env.eps_sq
  let drinv := 1 / env.sqrtQ dr2_eps
  let movr := pj.mass * drinv
  let drinv2 := drinv * drinv
  let movr3 := movr * drinv2
  let dr_eps := drinv * dr2_eps
  let k := 1 - env.accW pi.changeover pj.changeover dr_eps
  let r_out := env.r_out_base
  let r_out2 := r_out * r_out
  let dr2_max := if dr2_eps > r_out2 then dr2_eps else r_out2
  let drinv_max := 1 / env.sqrtQ dr2_max
  let movr_max := pj.mass * drinv_max
  let drinv2_max := drinv_max * drinv_max
  let movr3_max := movr_max * drinv2_max
  let pot' :=
    if pj.status = 0 then pi.pot_tot - (movr - movr_max)
    else if pj.status < 0 then pi.pot_tot - (pj.mass_bk * drinv - movr_max)
    else pi.pot_tot + movr_max
  { pi with pot_tot := pot', acc := pi.acc - (movr3 * k - movr3_max) • dr }

/-- Changeover-transition pairwise correction, embedding
calcAccChangeOverCorrection(Tpi, const Ptcl) of hard.hpp: the acceleration
delta between the new (staged) and old changeover weights. -/
def calcAccChangeOverCorrection (env : Env) (pi pj : Particle) : Particle :=
  let dr := pi.pos - pj.pos
  let dr2 := dr.dot dr
  let dr2_eps := dr2 + env.eps_sq
  let drinv := 1 / env.sqrtQ dr2_eps
  let movr := pj.mass * drinv
  let drinv2 := drinv * drinv
  let movr3 := movr * drinv2
  let dr_eps := drinv * dr2_eps
  let kold := 1 - env.accW pi.changeover pj.changeover dr_eps
  let chinew := ChangeOver.setR (pi.changeover.getRin * pi.changeover.r_scale_next)
      (pi.changeover.getRout * pi.changeover.r_scale_next)
  let chjnew := ChangeOver.setR (pj.changeover.getRin * pj.changeover.r_scale_next)
      (pj.changeover.getRout * pj.changeover.r_scale_next)
  let knew := 1 - env.accW chinew chjnew dr_eps
  { pi with acc := pi.acc - (movr3 * (knew - kold)) • dr }

/-- In-place update of one slot of a particle buffer (array element mutation
of the C++ code); out-of-range indices leave the buffer unchanged. -/
def updAt (l : List Particle) (i : ℕ) (f : Particle → Particle) : List Particle :=
  l.set i (f (l.getD i pzero))

/-- Modelled from the spec: offset of the first tidal-tensor sample inside an
artificial-particle block (GroupPars lives in a header outside this
repository; spec section 2, ArtificialGroupLayout: tidal-tensor samples,
then orbital samples, then the center-of-mass placeholder). -/
def offsetTT (_n_split : ℕ) : ℕ := 0

/-- Modelled from the spec: offset of the first orbital sample inside an
artificial-particle block. -/
def offsetOrb (n_split : ℕ) : ℕ := n_split

/-- Modelled from the spec: offset of the center-of-mass placeholder, the
last particle of the block; spec section 8 fixes the block size at
2*split_factor+1. -/
def offsetCM (n_split : ℕ) : ℕ := 2 * n_split

/-- Modelled from the spec: total artificial-particle count per group. -/
def nPtclArtifical (n_split : ℕ) : ℕ := 2 * n_split + 1

/-- Mass-weighted average acceleration of the orbital sample particles of the
group block starting at jStart, embedding the m_ob_tot accumulation loop. -/
def orbitalAvgAcc (n_split : ℕ) (sys : List Particle) (jStart : ℕ) : Vec3 :=
  let orbs := (List.range n_split).map (fun t => sys.getD (jStart + offsetOrb n_split + t) pzero)
  let m_ob_tot := (orbs.map Particle.mass).sum
  (1 / m_ob_tot) • (orbs.map (fun p => p.mass • p.acc)).sum

/-- Center-of-mass post-processing block shared by
correctForceWithCutoffArtificalOneClusterImp (hard.hpp lines 682-704) and
correctForceWithCutoffTreeNeighborImp (lines 914-937): the c.m. acceleration
is subtracted from every tidal-tensor sample, then the c.m. acceleration is
overwritten with the mass-weighted average acceleration of the orbital
samples. -/
def cmAverageReplace (n_split : ℕ) (sys : List Particle) (jStart : ℕ) : List Particle :=
  let jcm := jStart + offsetCM n_split
  let acc_cm := (sys.getD jcm pzero).acc
  let sys1 := (List.range n_split).foldl
      (fun s k => updAt s (jStart + offsetTT n_split + k) (fun p => { p with acc := p.acc - acc_cm })) sys
  updAt sys1 jcm (fun p => { p with acc := orbitalAvgAcc n_split sys1 jStart })

/-- Neighbor-loop fold of the pairwise cutoff corrections, skipping sources
whose id equals the corrected particle's id. -/
def neighborFold (env : Env) (selfId : ℤ) (p : Particle) (nbs : List Particle) : Particle :=
  nbs.foldl (fun pi pj => if pj.id = selfId then pi else calcAccPotShortWithLinearCutoff env pi pj) p

/-- Embedding of correctForceWithCutoffTreeNeighborOneParticleImp
(hard.hpp lines 594-619): the self-potential correction applied to singles
only, followed by the cutoff correction against every tree neighbor. -/
def correctForceWithCutoffTreeNeighborOneParticle (env : Env) (psoft : Particle)
    (nbs : List Particle) : Particle :=
  let p0 := if psoft.status = 0 then
      { psoft with pot_tot := psoft.pot_tot + psoft.mass / env.r_out_base }
    else psoft
  neighborFold env psoft.id p0 nbs

/-- Embedding of the per-member body of correctForceWithCutoffClusterImp
(hard.hpp lines 774-808): the self-potential correction applied to singles
only, then the cutoff correction against the other cluster members (passed
as a list that already excludes the member itself) and against every group's
orbital sample particles. -/
def correctForceWithCutoffClusterMember (env : Env) (p : Particle)
    (others orbs : List Particle) : Particle :=
  let p0 := if p.status = 0 then
      { p with pot_tot := p.pot_tot + p.mass / env.r_out_base }
    else p
  (others ++ orbs).foldl (fun pi pj => calcAccPotShortWithLinearCutoff env pi pj) p0

/-- Builder state for the member-status update loop of
findGroupsAndCreateArtificalParticlesImpl: the local hard-particle buffer,
the global particle store, the remote-member diagnostic counter and the
per-group changeover_update_flag. -/
structure BuilderSt where
  ptclLocal : List Particle
  sys : List Particle
  nRemote : ℕ
  flag : Bool
deriving DecidableEq, Repr

/-- One-particle half of a member update in the cluster builder
(hard.hpp lines 277-309, identical shape for the global store and the local
buffer): store the negative c.m. address as status, stage the changeover
rescale and raise the search radius when the inner radius differs from the
c.m. one, back the live mass up into mass_bk and zero the live mass. -/
def builderMemberUpdate (cmAdr : ℤ) (rsearchCm : ℚ) (chCm : ChangeOver)
    (q : Particle) : Particle :=
  let q1 := { q with status := -(cmAdr : ℚ) }
  let q2 := if q1.changeover.getRin ≠ chCm.getRin then
      { q1 with
        changeover := { q1.changeover with r_scale_next := chCm.getRin / q1.changeover.getRin },
        r_search := max q1.r_search rsearchCm }
    else q1
  { q2 with mass_bk := q2.mass, mass := 0 }

/-- One iteration of the group-member loop of the cluster builder
(hard.hpp lines 268-314): members with a non-negative adr_org update their
mirror in the global store, remote members only bump the remote counter;
the local buffer entry is always updated and a differing inner radius
raises the cluster changeover flag. -/
def builderStep (cmAdr : ℤ) (rsearchCm : ℚ) (chCm : ChangeOver)
    (st : BuilderSt) (kl : ℕ) : BuilderSt :=
  let p := st.ptclLocal.getD kl pzero
  let st1 :=
    if 0 ≤ p.adr_org then
      { st with sys := updAt st.sys p.adr_org.toNat (builderMemberUpdate cmAdr rsearchCm chCm) }
    else
      { st with nRemote := st.nRemote + 1 }
  { st1 with
    ptclLocal := updAt st1.ptclLocal kl (builderMemberUpdate cmAdr rsearchCm chCm),
    flag := st1.flag || decide (p.changeover.getRin ≠ chCm.getRin) }

/-- Member-status update loop for one detected group, embedding hard.hpp
lines 266-316 of findGroupsAndCreateArtificalParticlesImpl; kls is the list
of local-buffer indices of the group members. -/
def builderProcessGroup (cmAdr : ℤ) (rsearchCm : ℚ) (chCm : ChangeOver)
    (kls : List ℕ) (st : BuilderSt) : BuilderSt :=
  kls.foldl (builderStep cmAdr rsearchCm chCm) st

/-- Integration-path tag of driveForMultiClusterImpl. -/
inductive HardPath where
  | singleGroupAR : HardPath
  | mixedHermite : HardPath
deriving DecidableEq, Repr

/-- Count of ungrouped single particles in a cluster buffer
(n_single_init of driveForMultiClusterImpl, line 1085): the buffer length
minus the final group-member offset, which is the sum of the per-group
member counts. -/
def nSingleInit (nPtcl : ℤ) (counts : List ℤ) : ℤ := nPtcl - counts.sum

/-- Integration-path dispatch of driveForMultiClusterImpl (line 1162): the
regularized symplectic integrator runs exactly when there is one group and
no single; every other cluster goes to the Hermite path. -/
def driveRoute (counts : List ℤ) (nPtcl : ℤ) : HardPath :=
  if counts.length = 1 ∧ nSingleInit nPtcl counts = 0 then .singleGroupAR else .mixedHermite

/-- Outcome of one hard-cluster drive: the integrated state, or a fatal
abort carrying the dumped cluster state. -/
inductive DriveResult (σ : Type) where
  | ok : σ → DriveResult σ
  | abortDump : σ → DriveResult σ
deriving DecidableEq

/-- Energy gate of driveForMultiClusterImpl under HARD_CHECK_ENERGY
(hard.hpp lines 1554-1576): total energy is measured before (etoti) and
after (etotf) the integration; when the cluster energy change exceeds
energy_error_max in absolute value the state is dumped and the process
aborts, otherwise the integrated state is returned unconditionally.  The
integration engine and the energy functional are external collaborators and
enter as parameters. -/
def driveEnergyGate {σ : Type} (energy_error_max : ℚ) (energyOf : σ → ℚ)
    (integrate : σ → σ) (s : σ) : DriveResult σ :=
  let etoti := energyOf s
  let s2 := integrate s
  let etotf := energyOf s2
  let hard_dE_local := etotf - etoti
  if |hard_dE_local| > energy_error_max then .abortDump s2 else .ok s2

/-- Drift of one isolated particle (loop body of driveForOneCluster):
position advanced by vel * dt, then the search radius recomputed.  Modelled
from the spec: Ptcl::calcRSearch lives in a header outside this repository
and recomputes only the search radius from the drifted particle and the
tree step; it enters as the parameter rs. -/
def driveParticleOne (rs : Particle → ℚ → ℚ) (dt : ℚ) (p : Particle) : Particle :=
  let p1 := { p with pos := p.pos + dt • p.vel }
  { p1 with r_search := rs p1 dt }

/-- Embedding of driveForOneCluster (hard.hpp lines 1792-1806). -/
def driveForOneCluster (rs : Particle → ℚ → ℚ) (dt : ℚ) (buf : List Particle) : List Particle :=
  buf.map (driveParticleOne rs dt)

/-- Embedding of driveForOneClusterOMP (hard.hpp lines 1813-1826); the loop
body is identical to driveForOneCluster, the OMP variant only distributes
the independent slots over threads. -/
def driveForOneClusterOMP (rs : Particle → ℚ → ℚ) (dt : ℚ) (buf : List Particle) : List Particle :=
  buf.map (driveParticleOne rs dt)

/-- State of the changeover-transition correction pass for one flagged
cluster: the global particle store and that cluster's hard-particle
buffer. -/
structure CoSt where
  sys : List Particle
  hard : List Particle
deriving DecidableEq, Repr

/-- Orbital-source inner loop of the changeover-transition pass
(hard.hpp lines 2199-2212): for group kj, when the first orbital particle of
kj carries a staged rescale or the target particle k does, every orbital
particle of kj other than k corrects the acceleration of store slot k. -/
def coArtiInnerOrb (env : Env) (k : ℕ) (changek : Bool) (kj : ℕ)
    (sys : List Particle) : List Particle :=
  let kjso := kj + offsetOrb env.n_split
  if decide ((sys.getD kjso pzero).changeover.r_scale_next ≠ 1) || changek then
    ((List.range env.n_split).map (fun t => kjso + t)).foldl
      (fun s kk => if kk = k then s
        else updAt s k (fun pi => calcAccChangeOverCorrection env pi (s.getD kk pzero))) sys
  else sys

/-- Correction of one artificial store slot k (orbital sample or c.m.) of the
changeover-transition pass (hard.hpp lines 2193-2220): corrections from all
groups' orbital particles, then from the cluster's real particles, each
guarded by a staged rescale on either side. -/
def coArtiOneK (env : Env) (groupStarts : List ℕ) (hardList : List Particle)
    (k : ℕ) (sys : List Particle) : List Particle :=
  let changek : Bool := decide ((sys.getD k pzero).changeover.r_scale_next ≠ 1)
  let sys1 := groupStarts.foldl (fun s kj => coArtiInnerOrb env k changek kj s) sys
  hardList.foldl (fun s pj =>
    if decide (pj.changeover.r_scale_next ≠ 1) || changek then
      updAt s k (fun pi => calcAccChangeOverCorrection env pi pj)
    else s) sys1

/-- Artificial-particle phase of the changeover-transition pass
(hard.hpp lines 2186-2221): for every group, every orbital sample and the
c.m. placeholder are corrected. -/
def coArtiPhase (env : Env) (groupStarts : List ℕ) (hardList : List Particle)
    (sys : List Particle) : List Particle :=
  groupStarts.foldl (fun s js =>
    ((List.range (env.n_split + 1)).map (fun t => js + offsetOrb env.n_split + t)).foldl
      (fun s2 k => coArtiOneK env groupStarts hardList k s2) s) sys

/-- Tree-neighbor correction fold of the changeover-transition pass
(hard.hpp lines 2230-2235 and 2251-2256): neighbors are modelled as store
addresses whose data is read from the current store; a neighbor with the
particle's own id is skipped, and the correction fires when either side
carries a staged rescale. -/
def coNgbFold (env : Env) (adr : ℕ) (changei : Bool) (nbs : List ℕ)
    (sys : List Particle) : List Particle :=
  nbs.foldl (fun s a =>
    if (s.getD a pzero).id = (s.getD adr pzero).id then s
    else if decide ((s.getD a pzero).changeover.r_scale_next ≠ 1) || changei then
      updAt s adr (fun pi => calcAccChangeOverCorrection env pi (s.getD a pzero))
    else s) sys

/-- Real-particle step of the changeover-transition pass (hard.hpp lines
2224-2240): locally owned particles are corrected against their tree
neighbors, then the staged changeover is committed in the hard buffer and,
when owned, in the global store. -/
def coRealStep (env : Env) (ngb : ℕ → List ℕ) (st : CoSt) (j : ℕ) : CoSt :=
  let pj := st.hard.getD j pzero
  let adr := pj.adr_org
  let sys1 :=
    if 0 ≤ adr then
      let a := adr.toNat
      let changei : Bool := decide ((st.sys.getD a pzero).changeover.r_scale_next ≠ 1)
      coNgbFold env a changei (ngb a) st.sys
    else st.sys
  let hard1 := updAt st.hard j (fun p => { p with changeover := p.changeover.updateWithRScale })
  let sys2 :=
    if 0 ≤ adr then
      updAt sys1 adr.toNat (fun p => { p with changeover := p.changeover.updateWithRScale })
    else sys1
  { sys := sys2, hard := hard1 }

/-- Send-list step of the changeover-transition pass (hard.hpp lines
2246-2257): the sent particle is corrected against its tree neighbors and
its staged changeover committed. -/
def coSendStep (env : Env) (ngb : ℕ → List ℕ) (sys : List Particle) (a : ℕ) : List Particle :=
  let changei : Bool := decide ((sys.getD a pzero).changeover.r_scale_next ≠ 1)
  let sys1 := coNgbFold env a changei (ngb a) sys
  updAt sys1 a (fun p => { p with changeover := p.changeover.updateWithRScale })

/-- Embedding of correctForceForChangeOverUpdateOMP (hard.hpp lines
2173-2260) for one flagged cluster: the artificial-particle correction
phase, the real-particle correction-and-commit phase over the whole hard
buffer, and the send-list phase. -/
def correctForceForChangeOverUpdate (env : Env) (ngb : ℕ → List ℕ)
    (groupStarts : List ℕ) (sendAdrs : List ℕ) (st : CoSt) : CoSt :=
  let sysA := coArtiPhase env groupStarts st.hard st.sys
  let stB := (List.range st.hard.length).foldl (coRealStep env ngb) { st with sys := sysA }
  { stB with sys := sendAdrs.foldl (coSendStep env ngb) stB.sys }

/-- Softened inverse separation drinv of a pair. -/
def pairDrinv (env : Env) (pi pj : Particle) : ℚ :=
  let dr := pi.pos - pj.pos
  1 / env.sqrtQ (dr.dot dr + env.eps_sq)

/-- Inverse separation drinv_max of a pair with the squared separation
clamped from below by the square of r_out_base. -/
def pairDrinvMax (env : Env) (pi pj : Particle) : ℚ :=
  let dr := pi.pos - pj.pos
  let dr2_eps := dr.dot dr + env.eps_sq
  let r_out2 := env.r_out_base * env.r_out_base
  1 / env.sqrtQ (if dr2_eps > r_out2 then dr2_eps else r_out2)

/-- Softened Newtonian acceleration of particle i due to the mass of
particle j (attractive, pointing from i toward j), as named in claim C2. -/
def exactPairwiseAccel (env : Env) (pi pj : Particle) : Vec3 :=
  let drinv := pairDrinv env pi pj
  (-(pj.mass * (drinv * drinv * drinv))) • (pi.pos - pj.pos)

/-- Softened Newtonian acceleration of i due to j evaluated with the
separation clamped up to r_out_base, as named in claim C2. -/
def linearCutoffAccel (env : Env) (pi pj : Particle) : Vec3 :=
  let drinv_max := pairDrinvMax env pi pj
  (-(pj.mass * (drinv_max * drinv_max * drinv_max))) • (pi.pos - pj.pos)

/-- Two-sided changeover acceleration weight of a pair at the softened
separation, as named in claim C2. -/
def changeoverWeight (env : Env) (pi pj : Particle) : ℚ :=
  let dr := pi.pos - pj.pos
  let dr2_eps := dr.dot dr + env.eps_sq
  env.accW pi.changeover pj.changeover ((1 / env.sqrtQ dr2_eps) * dr2_eps)

/-- Acceleration change asserted by claim C2 exactly as the spec states
it: (changeover_weight - 1) times the exact pairwise acceleration minus the
linear cutoff term. -/
def claimedDeltaAccC2 (env : Env) (pi pj : Particle) : Vec3 :=
  (changeoverWeight env pi pj - 1) • exactPairwiseAccel env pi pj - linearCutoffAccel env pi pj

/-- Mass entering the potential sum for source j, selected by its status as
claim C7 describes: live mass for a single, backup mass for a group member,
excluded for an artificial sample. -/
def potSourceMass (pj : Particle) : ℚ :=
  if pj.status = 0 then pj.mass else if pj.status < 0 then pj.mass_bk else 0

/-- Pure pairwise-correction fold used by the cluster-scoped variant, with no
id-based skip (the source lists already exclude the particle itself). -/
def clusterPairFold (env : Env) (p : Particle) (srcs : List Particle) : Particle :=
  srcs.foldl (fun pi pj => calcAccPotShortWithLinearCutoff env pi pj) p

/-- Address of the member at local-buffer slot i, read from the builder
state. -/
def builderAdrOf (st : BuilderSt) (i : ℕ) : ℤ := (st.ptclLocal.getD i pzero).adr_org

/-- Concrete environment used by the C2 counterexample: square root and
changeover weight instantiated with the spec-modelled kernels at the inputs
that arise there. -/
def envC2 : Env :=
  { energy_error_max := 1, r_in_base := 2, r_out_base := 4, eps_sq := 0, n_split := 1,
    sqrtQ := fun q => if q = 9 then 3 else 4, accW := accWModel }

/-- Corrected particle of the C2 counterexample. -/
def piC2 : Particle := { pzero with pos := ⟨3, 0, 0⟩, changeover := ⟨2, 4, 1⟩ }

/-- Source particle of the C2 counterexample. -/
def pjC2 : Particle := { pzero with mass := 1, changeover := ⟨2, 4, 1⟩ }

/-- Concrete artificial-particle block of the C1 counterexample: one
tidal-tensor sample, one orbital sample, one c.m. placeholder. -/
def sysC1 : List Particle :=
  [ pzero,
    { pzero with mass := 1, acc := ⟨1, 0, 0⟩ },
    { pzero with acc := ⟨5, 0, 0⟩ } ]

/-- Concrete environment of the C5 counterexample. -/
def envC5 : Env :=
  { energy_error_max := 1, r_in_base := 2, r_out_base := 4, eps_sq := 0, n_split := 1,
    sqrtQ := fun q => if q = 9 then 3 else 0, accW := accWModel }

/-- Concrete pass state family of the C5 counterexample, indexed by the x
acceleration already accumulated on the orbital sample: an artificial block
with an orbital sample whose staged multiplier is 2, its c.m. placeholder,
and one real particle mirrored at store address 3. -/
def stC5a (a : ℚ) : CoSt :=
  { sys := [ pzero,
             { pzero with mass := 1, changeover := ⟨2, 4, 2⟩, acc := ⟨a, 0, 0⟩ },
             { pzero with changeover := ⟨2, 4, 1⟩ },
             { pzero with id := 7, changeover := ⟨2, 4, 1⟩ } ],
    hard := [ { pzero with id := 7, pos := ⟨3, 0, 0⟩, mass := 1, adr_org := 3,
                           changeover := ⟨2, 4, 1⟩ } ] }

/-- Second application of the changeover-transition pass in the C5
counterexample. -/
def passC5 (st : CoSt) : CoSt :=
  correctForceForChangeOverUpdate envC5 (fun _ => []) [0] [] st

/-- Concrete builder state of the C4 and C6 witnesses: one locally owned
member at slot 0 (mirror at store address 1) and one remote member at
slot 1. -/
def stBW : BuilderSt :=
  { ptclLocal := [ { pzero with mass := 3, adr_org := 1, changeover := ⟨1, 4, 1⟩ },
                   { pzero with mass := 2, adr_org := -1, changeover := ⟨2, 8, 1⟩ } ],
    sys := [ pzero, { pzero with mass := 3, adr_org := 1, changeover := ⟨1, 4, 1⟩ } ],
    nRemote := 0,
    flag := false }

/-- Center-of-mass changeover of the C4 and C6 witnesses. -/
def chCmW : ChangeOver := ⟨2, 8, 1⟩

theorem Vec3.ext_iff {a b : Vec3} : a = b ↔ a.x = b.x ∧ a.y = b.y ∧ a.z = b.z := by
  cases a; cases b; simp

theorem Vec3.zero_def : (0 : Vec3) = ⟨0, 0, 0⟩ := rfl

theorem Vec3.mk_add (a b c d e f : ℚ) :
    ((⟨a, b, c⟩ : Vec3) + ⟨d, e, f⟩) = ⟨a + d, b + e, c + f⟩ := rfl

theorem Vec3.mk_sub (a b c d e f : ℚ) :
    ((⟨a, b, c⟩ : Vec3) - ⟨d, e, f⟩) = ⟨a - d, b - e, c - f⟩ := rfl

theorem Vec3.mk_smul (q a b c : ℚ) :
    (q • (⟨a, b, c⟩ : Vec3)) = ⟨q * a, q * b, q * c⟩ := rfl

@[simp] theorem Vec3.add_x (a b : Vec3) : (a + b).x = a.x + b.x := rfl

@[simp] theorem Vec3.add_y (a b : Vec3) : (a + b).y = a.y + b.y := rfl

@[simp] theorem Vec3.add_z (a b : Vec3) : (a + b).z = a.z + b.z := rfl

@[simp] theorem Vec3.sub_x (a b : Vec3) : (a - b).x = a.x - b.x := rfl

@[simp] theorem Vec3.sub_y (a b : Vec3) : (a - b).y = a.y - b.y := rfl

@[simp] theorem Vec3.sub_z (a b : Vec3) : (a - b).z = a.z - b.z := rfl

@[simp] theorem Vec3.zero_x : (0 : Vec3).x = 0 := rfl

@[simp] theorem Vec3.zero_y : (0 : Vec3).y = 0 := rfl

@[simp] theorem Vec3.zero_z : (0 : Vec3).z = 0 := rfl

@[simp] theorem Vec3.neg_x (a : Vec3) : (-a).x = -a.x := rfl

@[simp] theorem Vec3.neg_y (a : Vec3) : (-a).y = -a.y := rfl

@[simp] theorem Vec3.neg_z (a : Vec3) : (-a).z = -a.z := rfl

@[simp] theorem Vec3.smul_x (c : ℚ) (v : Vec3) : (c • v).x = c * v.x := rfl

@[simp] theorem Vec3.smul_y (c : ℚ) (v : Vec3) : (c • v).y = c * v.y := rfl

@[simp] theorem Vec3.smul_z (c : ℚ) (v : Vec3) : (c • v).z = c * v.z := rfl

/-- Claim C2 - counterexample.  At a concrete pair the acceleration change
produced by the pairwise correction primitive is not the value the claim
states, (changeover_weight - 1) * exact_pairwise_accel - linear_cutoff_term;
the first factor has the wrong sign. -/
theorem c2_counterexample :
    (calcAccPotShortWithLinearCutoff envC2 piC2 pjC2).acc - piC2.acc
      ≠ claimedDeltaAccC2 envC2 piC2 pjC2 := by
  intro h
  have hx := congrArg Vec3.x h
  norm_num [calcAccPotShortWithLinearCutoff, claimedDeltaAccC2, changeoverWeight,
    exactPairwiseAccel, linearCutoffAccel, pairDrinv, pairDrinvMax, envC2, piC2, pjC2,
    accWModel, rampW, pzero, Vec3.dot] at hx

/-- Claim C2 - amended and proved: one call to the pairwise correction
primitive changes the acceleration of i by exactly
(1 - changeover_weight) * exact_pairwise_accel - linear_cutoff_term, and
modifies nothing of i besides its acceleration and potential (the source j
is read-only). -/
theorem c2_amended (env : Env) (pi pj : Particle) :
    (calcAccPotShortWithLinearCutoff env pi pj).acc
      = pi.acc + ((1 - changeoverWeight env pi pj) • exactPairwiseAccel env pi pj
          - linearCutoffAccel env pi pj)
    ∧ (calcAccPotShortWithLinearCutoff env pi pj).mass = pi.mass
    ∧ (calcAccPotShortWithLinearCutoff env pi pj).pos = pi.pos
    ∧ (calcAccPotShortWithLinearCutoff env pi pj).vel = pi.vel
    ∧ (calcAccPotShortWithLinearCutoff env pi pj).r_search = pi.r_search
    ∧ (calcAccPotShortWithLinearCutoff env pi pj).status = pi.status
    ∧ (calcAccPotShortWithLinearCutoff env pi pj).mass_bk = pi.mass_bk
    ∧ (calcAccPotShortWithLinearCutoff env pi pj).id = pi.id
    ∧ (calcAccPotShortWithLinearCutoff env pi pj).adr_org = pi.adr_org
    ∧ (calcAccPotShortWithLinearCutoff env pi pj).changeover = pi.changeover := by
  refine ⟨?_, rfl, rfl, rfl, rfl, rfl, rfl, rfl, rfl, rfl⟩
  simp only [calcAccPotShortWithLinearCutoff, changeoverWeight, exactPairwiseAccel,
    linearCutoffAccel, pairDrinv, pairDrinvMax]
  rw [Vec3.ext_iff]
  refine ⟨?_, ?_, ?_⟩ <;> simp <;> ring

/-- Claim C7 - confirmed: the potential correction subtracts the
status-selected source mass (live mass for a single, backup mass for a
member, nothing for an artificial sample) over the softened separation, and
always adds back the canceling linear-cutoff term, the live source mass over
the clamped separation. -/
theorem c7_potential_selection (env : Env) (pi pj : Particle) :
    (calcAccPotShortWithLinearCutoff env pi pj).pot_tot
      = pi.pot_tot - potSourceMass pj * pairDrinv env pi pj
          + pj.mass * pairDrinvMax env pi pj := by
  simp only [calcAccPotShortWithLinearCutoff, potSourceMass, pairDrinv, pairDrinvMax]
  split_ifs <;> ring

/-- Claim C3 - confirmed: the single-group regularized path is chosen if and
only if the cluster has exactly one group and no ungrouped single (the
buffer length equals the group-member total); every other configuration
takes the mixed Hermite path. -/
theorem c3_route_dispatch (counts : List ℤ) (nPtcl : ℤ) :
    (driveRoute counts nPtcl = HardPath.singleGroupAR
        ↔ counts.length = 1 ∧ nPtcl = counts.sum)
    ∧ (driveRoute counts nPtcl = HardPath.mixedHermite
        ↔ ¬(counts.length = 1 ∧ nPtcl = counts.sum)) := by
  unfold driveRoute nSingleInit
  constructor <;> split_ifs with h <;> simp_all [sub_eq_zero]

/-- Claim C8 - confirmed: with energy accounting enabled, the per-cluster
drive aborts with a state dump exactly when the absolute energy change of
the integration exceeds the configured threshold, and otherwise returns the
integrated state with no retry. -/
theorem c8_energy_gate {σ : Type} (em : ℚ) (energyOf : σ → ℚ) (integrate : σ → σ) (s : σ) :
    (driveEnergyGate em energyOf integrate s = DriveResult.abortDump (integrate s)
        ↔ |energyOf (integrate s) - energyOf s| > em)
    ∧ (¬ |energyOf (integrate s) - energyOf s| > em
        → driveEnergyGate em energyOf integrate s = DriveResult.ok (integrate s)) := by
  simp only [driveEnergyGate]
  constructor
  · split_ifs with h <;> simp [h]
  · intro h; simp [h]

/-- Witness for c8_energy_gate at a concrete threshold, energy functional,
integrator and state. -/
theorem c8_energy_gate_witness :
    driveEnergyGate (1 : ℚ) id id 0 = DriveResult.ok 0 :=
  (c8_energy_gate 1 id id 0).2 (by norm_num)

/-- Claim C10 - confirmed: the isolated single-particle drive moves each
particle by vel * dt, recomputes its search radius on the drifted particle,
and leaves mass, velocity, id, status, mass_bk, adr_org and changeover state
unchanged; the OMP variant computes the same result. -/
theorem c10_drive_one_cluster (rs : Particle → ℚ → ℚ) (dt : ℚ) (buf : List Particle)
    (i : ℕ) (h : i < buf.length) :
    ((driveForOneCluster rs dt buf).getD i pzero).pos
        = (buf.getD i pzero).pos + dt • (buf.getD i pzero).vel
    ∧ ((driveForOneCluster rs dt buf).getD i pzero).r_search
        = rs { buf.getD i pzero with
               pos := (buf.getD i pzero).pos + dt • (buf.getD i pzero).vel } dt
    ∧ ((driveForOneCluster rs dt buf).getD i pzero).mass = (buf.getD i pzero).mass
    ∧ ((driveForOneCluster rs dt buf).getD i pzero).vel = (buf.getD i pzero).vel
    ∧ ((driveForOneCluster rs dt buf).getD i pzero).id = (buf.getD i pzero).id
    ∧ ((driveForOneCluster rs dt buf).getD i pzero).status = (buf.getD i pzero).status
    ∧ ((driveForOneCluster rs dt buf).getD i pzero).mass_bk = (buf.getD i pzero).mass_bk
    ∧ ((driveForOneCluster rs dt buf).getD i pzero).adr_org = (buf.getD i pzero).adr_org
    ∧ ((driveForOneCluster rs dt buf).getD i pzero).changeover
        = (buf.getD i pzero).changeover
    ∧ driveForOneClusterOMP rs dt buf = driveForOneCluster rs dt buf := by
  have hm : i < (driveForOneCluster rs dt buf).length := by
    simpa [driveForOneCluster] using h
  rw [List.getD_eq_getElem _ _ hm, List.getD_eq_getElem _ _ h]
  simp only [driveForOneCluster, List.getElem_map]
  exact ⟨rfl, rfl, rfl, rfl, rfl, rfl, rfl, rfl, rfl, rfl⟩

theorem calc_pot_shift (env : Env) (p x : Particle) (c : ℚ) :
    calcAccPotShortWithLinearCutoff env { p with pot_tot := c } x
      = { calcAccPotShortWithLinearCutoff env p x with
          pot_tot := (calcAccPotShortWithLinearCutoff env p x).pot_tot - p.pot_tot + c } := by
  obtain ⟨m, po, v, a, pt, rs, stt, mb, idp, ao, ch⟩ := p
  simp only [calcAccPotShortWithLinearCutoff]
  split_ifs <;> simp_all <;> ring

theorem foldl_pot_shift {β : Type} (g : Particle → β → Particle)
    (hg : ∀ (p : Particle) (x : β) (c : ℚ),
      g { p with pot_tot := c } x
        = { g p x with pot_tot := (g p x).pot_tot - p.pot_tot + c })
    (l : List β) (p : Particle) (c : ℚ) :
    l.foldl g { p with pot_tot := c }
      = { l.foldl g p with pot_tot := (l.foldl g p).pot_tot - p.pot_tot + c } := by
  induction l generalizing p c with
  | nil =>
    simp only [List.foldl_nil]
    have h : p.pot_tot - p.pot_tot + c = c := by ring
    rw [h]
  | cons b t ih =>
    simp only [List.foldl_cons]
    rw [hg p b c, ih]
    have h : (t.foldl g (g p b)).pot_tot - (g p b).pot_tot + ((g p b).pot_tot - p.pot_tot + c)
        = (t.foldl g (g p b)).pot_tot - p.pot_tot + c := by ring
    rw [h]

theorem neighbor_step_pot_shift (env : Env) (sid : ℤ) (p x : Particle) (c : ℚ) :
    (fun pi pj => if pj.id = sid then pi else calcAccPotShortWithLinearCutoff env pi pj)
        { p with pot_tot := c } x
      = { (fun pi pj => if pj.id = sid then pi else calcAccPotShortWithLinearCutoff env pi pj) p x
          with pot_tot :=
            ((fun pi pj => if pj.id = sid then pi else calcAccPotShortWithLinearCutoff env pi pj) p x).pot_tot
              - p.pot_tot + c } := by
  by_cases hx : x.id = sid
  · simp only [hx, if_pos]
    have h : p.pot_tot - p.pot_tot + c = c := by ring
    rw [h]
  · simp only [hx, if_neg, if_false]
    exact calc_pot_shift env p x c

/-- Claim C9 - confirmed: in the tree-neighbor one-particle correction and
in the per-member cluster-scoped correction, the net effect is the pure
pairwise-correction fold plus a self-potential term mass / r_out_base that
is added exactly when the particle's status is 0; particles with negative
or positive status get no self-potential term. -/
theorem c9_self_potential (env : Env) (p : Particle) (nbs others orbs : List Particle) :
    correctForceWithCutoffTreeNeighborOneParticle env p nbs
      = { neighborFold env p.id p nbs with
          pot_tot := (neighborFold env p.id p nbs).pot_tot
            + (if p.status = 0 then p.mass / env.r_out_base else 0) }
    ∧ correctForceWithCutoffClusterMember env p others orbs
      = { clusterPairFold env p (others ++ orbs) with
          pot_tot := (clusterPairFold env p (others ++ orbs)).pot_tot
            + (if p.status = 0 then p.mass / env.r_out_base else 0) } := by
  constructor
  · show neighborFold env p.id
        (if p.status = 0 then { p with pot_tot := p.pot_tot + p.mass / env.r_out_base } else p) nbs
      = _
    by_cases hs : p.status = 0
    · rw [if_pos hs, if_pos hs]
      unfold neighborFold
      rw [foldl_pot_shift _ (neighbor_step_pot_shift env p.id) nbs p
            (p.pot_tot + p.mass / env.r_out_base)]
      have h : (nbs.foldl
            (fun pi pj => if pj.id = p.id then pi else calcAccPotShortWithLinearCutoff env pi pj)
            p).pot_tot - p.pot_tot + (p.pot_tot + p.mass / env.r_out_base)
          = (nbs.foldl
            (fun pi pj => if pj.id = p.id then pi else calcAccPotShortWithLinearCutoff env pi pj)
            p).pot_tot + p.mass / env.r_out_base := by ring
      rw [h]
    · rw [if_neg hs, if_neg hs, add_zero]
  · show clusterPairFold env
        (if p.status = 0 then { p with pot_tot := p.pot_tot + p.mass / env.r_out_base } else p)
        (others ++ orbs) = _
    by_cases hs : p.status = 0
    · rw [if_pos hs, if_pos hs]
      unfold clusterPairFold
      rw [foldl_pot_shift _ (fun q x c => calc_pot_shift env q x c) (others ++ orbs) p
            (p.pot_tot + p.mass / env.r_out_base)]
      have h : ((others ++ orbs).foldl
            (fun pi pj => calcAccPotShortWithLinearCutoff env pi pj)
            p).pot_tot - p.pot_tot + (p.pot_tot + p.mass / env.r_out_base)
          = ((others ++ orbs).foldl
            (fun pi pj => calcAccPotShortWithLinearCutoff env pi pj)
            p).pot_tot + p.mass / env.r_out_base := by ring
      rw [h]
    · rw [if_neg hs, if_neg hs, add_zero]

theorem length_updAt (l : List Particle) (i : ℕ) (f : Particle → Particle) :
    (updAt l i f).length = l.length := by
  simp [updAt]

theorem getD_updAt_ne (l : List Particle) (f : Particle → Particle) {i j : ℕ} (h : j ≠ i) :
    (updAt l i f).getD j pzero = l.getD j pzero := by
  simp [updAt, List.getD_eq_getElem?_getD, List.getElem?_set_ne (Ne.symm h)]

theorem getD_updAt_eq (l : List Particle) (f : Particle → Particle) {i : ℕ} (h : i < l.length) :
    (updAt l i f).getD i pzero = f (l.getD i pzero) := by
  simp [updAt, List.getD_eq_getElem?_getD, List.getElem?_set_self h]

theorem set_getD_self (l : List Particle) (i : ℕ) : l.set i (l.getD i pzero) = l := by
  rw [List.getD_eq_getElem?_getD]
  induction l generalizing i with
  | nil => simp
  | cons a t ih =>
    cases i with
    | zero => simp
    | succ n => simp [ih]

theorem updAt_eq_self (l : List Particle) (i : ℕ) (f : Particle → Particle)
    (h : f (l.getD i pzero) = l.getD i pzero) : updAt l i f = l := by
  rw [updAt, h]
  exact set_getD_self l i

theorem foldl_updAt_range_length (g : Particle → Particle) (base n : ℕ) (sys : List Particle) :
    ((List.range n).foldl (fun s k => updAt s (base + k) g) sys).length = sys.length := by
  induction n with
  | zero => rfl
  | succ m ih =>
    rw [List.range_succ, List.foldl_append]
    simp only [List.foldl_cons, List.foldl_nil]
    rw [length_updAt]
    exact ih

theorem foldl_updAt_range_getD_not (g : Particle → Particle) (base n : ℕ) (sys : List Particle)
    {j : ℕ} (h : ∀ k, k < n → base + k ≠ j) :
    ((List.range n).foldl (fun s k => updAt s (base + k) g) sys).getD j pzero
      = sys.getD j pzero := by
  induction n with
  | zero => rfl
  | succ m ih =>
    rw [List.range_succ, List.foldl_append]
    simp only [List.foldl_cons, List.foldl_nil]
    rw [getD_updAt_ne _ _ (fun hj => (h m (Nat.lt_succ_self m)) hj.symm)]
    exact ih (fun k hk => h k (Nat.lt_succ_of_lt hk))

theorem foldl_updAt_range_getD_hit (g : Particle → Particle) (base n : ℕ) (sys : List Particle)
    {k : ℕ} (hk : k < n) (hlen : base + k < sys.length) :
    ((List.range n).foldl (fun s k => updAt s (base + k) g) sys).getD (base + k) pzero
      = g (sys.getD (base + k) pzero) := by
  induction n with
  | zero => omega
  | succ m ih =>
    rw [List.range_succ, List.foldl_append]
    simp only [List.foldl_cons, List.foldl_nil]
    rcases Nat.lt_or_ge k m with hkm | hkm
    · rw [getD_updAt_ne _ _ (by omega)]
      exact ih hkm
    · have hkeq : k = m := by omega
      subst hkeq
      rw [getD_updAt_eq]
      · rw [foldl_updAt_range_getD_not g base k sys (fun t ht => by omega)]
      · rw [foldl_updAt_range_length]
        exact hlen

/-- Claim C1 - counterexample.  On a concrete one-group block the quantity
subtracted from the tidal-tensor sample is not the mass-weighted orbital
average that ends up as the c.m. acceleration: the code subtracts the
pre-replacement c.m. acceleration instead. -/
theorem c1_counterexample :
    ¬ (((cmAverageReplace 1 sysC1 0).getD (0 + offsetTT 1 + 0) pzero).acc
        = (sysC1.getD (0 + offsetTT 1 + 0) pzero).acc
          - ((cmAverageReplace 1 sysC1 0).getD (0 + offsetCM 1) pzero).acc) := by
  intro h
  have hx := congrArg Vec3.x h
  norm_num [cmAverageReplace, orbitalAvgAcc, updAt, offsetTT, offsetOrb, offsetCM,
    sysC1, pzero, List.range_succ] at hx

/-- Claim C1 - amended and proved: after the artificial-particle corrections
the c.m. acceleration of the group block is first subtracted from every
tidal-tensor sample acceleration, and only then is the c.m. acceleration
replaced by the mass-weighted average acceleration of the orbital samples;
the orbital samples themselves are untouched. -/
theorem c1_amended (n_split : ℕ) (sys : List Particle) (jStart : ℕ)
    (h : jStart + 2 * n_split < sys.length) :
    (((cmAverageReplace n_split sys jStart).getD (jStart + offsetCM n_split) pzero).acc
        = orbitalAvgAcc n_split sys jStart)
    ∧ (∀ k, k < n_split →
        ((cmAverageReplace n_split sys jStart).getD (jStart + offsetTT n_split + k) pzero).acc
          = (sys.getD (jStart + offsetTT n_split + k) pzero).acc
            - (sys.getD (jStart + offsetCM n_split) pzero).acc)
    ∧ (∀ t, t < n_split →
        (cmAverageReplace n_split sys jStart).getD (jStart + offsetOrb n_split + t) pzero
          = sys.getD (jStart + offsetOrb n_split + t) pzero) := by
  have hcmlt : jStart + offsetCM n_split < sys.length := by
    simpa [offsetCM] using h
  simp only [cmAverageReplace]
  have hlen1 : ((List.range n_split).foldl
      (fun s k => updAt s (jStart + offsetTT n_split + k)
        (fun p => { p with acc := p.acc - (sys.getD (jStart + offsetCM n_split) pzero).acc }))
      sys).length = sys.length :=
    foldl_updAt_range_length _ _ _ _
  have horb : ∀ t, t < n_split →
      ((List.range n_split).foldl
        (fun s k => updAt s (jStart + offsetTT n_split + k)
          (fun p => { p with acc := p.acc - (sys.getD (jStart + offsetCM n_split) pzero).acc }))
        sys).getD (jStart + offsetOrb n_split + t) pzero
      = sys.getD (jStart + offsetOrb n_split + t) pzero := by
    intro t ht
    exact foldl_updAt_range_getD_not _ _ _ _
      (fun k hk => by simp only [offsetTT, offsetOrb]; omega)
  have havg : orbitalAvgAcc n_split
      ((List.range n_split).foldl
        (fun s k => updAt s (jStart + offsetTT n_split + k)
          (fun p => { p with acc := p.acc - (sys.getD (jStart + offsetCM n_split) pzero).acc }))
        sys) jStart
      = orbitalAvgAcc n_split sys jStart := by
    simp only [orbitalAvgAcc]
    rw [List.map_congr_left (fun t ht => horb t (List.mem_range.mp ht))]
  refine ⟨?_, ?_, ?_⟩
  · rw [getD_updAt_eq _ _ (by rw [hlen1]; exact hcmlt)]
    simpa using havg
  · intro k hk
    rw [getD_updAt_ne _ _ (by simp only [offsetTT, offsetCM]; omega)]
    rw [foldl_updAt_range_getD_hit _ _ _ _ hk
      (by simp only [offsetTT] at *; omega)]
  · intro t ht
    rw [getD_updAt_ne _ _ (by simp only [offsetOrb, offsetCM]; omega)]
    exact horb t ht

/-- Witness for c1_amended on the concrete three-particle block. -/
theorem c1_amended_witness :
    ((cmAverageReplace 1 sysC1 0).getD (0 + offsetCM 1) pzero).acc
      = orbitalAvgAcc 1 sysC1 0 :=
  (c1_amended 1 sysC1 0 (by simp [sysC1])).1

theorem getD_updAt_cases (l : List Particle) (i j : ℕ) (f : Particle → Particle) :
    (updAt l i f).getD j pzero = l.getD j pzero
      ∨ (updAt l i f).getD j pzero = f (l.getD j pzero) := by
  by_cases hj : j = i
  · subst hj
    by_cases hl : j < l.length
    · exact Or.inr (getD_updAt_eq l f hl)
    · left
      rw [List.getD_eq_default _ _ (by rw [length_updAt]; omega),
        List.getD_eq_default _ _ (by omega)]
  · exact Or.inl (getD_updAt_ne l f hj)

theorem bmu_status (cmAdr : ℤ) (rsCm : ℚ) (chCm : ChangeOver) (q : Particle) :
    (builderMemberUpdate cmAdr rsCm chCm q).status = -(cmAdr : ℚ) := by
  simp only [builderMemberUpdate]
  all_goals first
  | rfl
  | split_ifs <;> rfl

theorem bmu_mass (cmAdr : ℤ) (rsCm : ℚ) (chCm : ChangeOver) (q : Particle) :
    (builderMemberUpdate cmAdr rsCm chCm q).mass = 0 := by
  simp only [builderMemberUpdate]

theorem bmu_mass_bk (cmAdr : ℤ) (rsCm : ℚ) (chCm : ChangeOver) (q : Particle) :
    (builderMemberUpdate cmAdr rsCm chCm q).mass_bk = q.mass := by
  simp only [builderMemberUpdate]
  all_goals first
  | rfl
  | split_ifs <;> rfl

theorem bmu_adr (cmAdr : ℤ) (rsCm : ℚ) (chCm : ChangeOver) (q : Particle) :
    (builderMemberUpdate cmAdr rsCm chCm q).adr_org = q.adr_org := by
  simp only [builderMemberUpdate]
  all_goals first
  | rfl
  | split_ifs <;> rfl

theorem bmu_changeover_ne (cmAdr : ℤ) (rsCm : ℚ) (chCm : ChangeOver) (q : Particle)
    (h : q.changeover.getRin ≠ chCm.getRin) :
    (builderMemberUpdate cmAdr rsCm chCm q).changeover
        = { q.changeover with r_scale_next := chCm.getRin / q.changeover.getRin }
      ∧ (builderMemberUpdate cmAdr rsCm chCm q).r_search = max q.r_search rsCm := by
  simp only [builderMemberUpdate]
  rw [if_pos h]
  exact ⟨rfl, rfl⟩

theorem bmu_changeover_eq (cmAdr : ℤ) (rsCm : ℚ) (chCm : ChangeOver) (q : Particle)
    (h : q.changeover.getRin = chCm.getRin) :
    (builderMemberUpdate cmAdr rsCm chCm q).changeover = q.changeover
      ∧ (builderMemberUpdate cmAdr rsCm chCm q).r_search = q.r_search := by
  simp only [builderMemberUpdate]
  rw [if_neg (by simpa using h)]
  exact ⟨rfl, rfl⟩

theorem builderStep_local_length (cmAdr : ℤ) (rsCm : ℚ) (chCm : ChangeOver)
    (st : BuilderSt) (kl : ℕ) :
    (builderStep cmAdr rsCm chCm st kl).ptclLocal.length = st.ptclLocal.length := by
  simp only [builderStep]
  split_ifs <;> exact length_updAt _ _ _

theorem builderStep_sys_length (cmAdr : ℤ) (rsCm : ℚ) (chCm : ChangeOver)
    (st : BuilderSt) (kl : ℕ) :
    (builderStep cmAdr rsCm chCm st kl).sys.length = st.sys.length := by
  simp only [builderStep]
  split_ifs
  · exact length_updAt _ _ _
  · rfl

theorem builderStep_local_getD_ne (cmAdr : ℤ) (rsCm : ℚ) (chCm : ChangeOver)
    (st : BuilderSt) (kl : ℕ) {j : ℕ} (h : j ≠ kl) :
    (builderStep cmAdr rsCm chCm st kl).ptclLocal.getD j pzero
      = st.ptclLocal.getD j pzero := by
  simp only [builderStep]
  split_ifs <;> exact getD_updAt_ne _ _ h

theorem builderStep_local_getD_self (cmAdr : ℤ) (rsCm : ℚ) (chCm : ChangeOver)
    (st : BuilderSt) (kl : ℕ) (h : kl < st.ptclLocal.length) :
    (builderStep cmAdr rsCm chCm st kl).ptclLocal.getD kl pzero
      = builderMemberUpdate cmAdr rsCm chCm (st.ptclLocal.getD kl pzero) := by
  simp only [builderStep]
  split_ifs <;> exact getD_updAt_eq _ _ h

theorem builderStep_adrOf (cmAdr : ℤ) (rsCm : ℚ) (chCm : ChangeOver)
    (st : BuilderSt) (kl j : ℕ) :
    builderAdrOf (builderStep cmAdr rsCm chCm st kl) j = builderAdrOf st j := by
  by_cases hj : j = kl
  · subst hj
    simp only [builderAdrOf, builderStep]
    split_ifs <;>
      rcases getD_updAt_cases st.ptclLocal j j (builderMemberUpdate cmAdr rsCm chCm) with hc | hc <;>
      rw [hc] <;> simp [bmu_adr]
  · simp only [builderAdrOf]
    rw [builderStep_local_getD_ne cmAdr rsCm chCm st kl hj]

theorem builderStep_sys_getD_not (cmAdr : ℤ) (rsCm : ℚ) (chCm : ChangeOver)
    (st : BuilderSt) (kl : ℕ) {a : ℕ}
    (h : ¬(0 ≤ builderAdrOf st kl ∧ (builderAdrOf st kl).toNat = a)) :
    (builderStep cmAdr rsCm chCm st kl).sys.getD a pzero = st.sys.getD a pzero := by
  simp only [builderStep, builderAdrOf] at *
  split_ifs with hadr
  · exact getD_updAt_ne _ _ (fun heq => h ⟨hadr, heq.symm⟩)
  · rfl

theorem builderStep_sys_getD_self (cmAdr : ℤ) (rsCm : ℚ) (chCm : ChangeOver)
    (st : BuilderSt) (kl : ℕ) (h0 : 0 ≤ builderAdrOf st kl)
    (hlt : (builderAdrOf st kl).toNat < st.sys.length) :
    (builderStep cmAdr rsCm chCm st kl).sys.getD (builderAdrOf st kl).toNat pzero
      = builderMemberUpdate cmAdr rsCm chCm
          (st.sys.getD (builderAdrOf st kl).toNat pzero) := by
  simp only [builderStep, builderAdrOf] at *
  rw [if_pos h0]
  exact getD_updAt_eq _ _ hlt

theorem builderStep_nRemote (cmAdr : ℤ) (rsCm : ℚ) (chCm : ChangeOver)
    (st : BuilderSt) (kl : ℕ) :
    (builderStep cmAdr rsCm chCm st kl).nRemote
      = st.nRemote + (if builderAdrOf st kl < 0 then 1 else 0) := by
  simp only [builderStep, builderAdrOf] at *
  split_ifs with h1 h2
  · omega
  · rfl
  · rfl
  · omega

theorem bpg_local_length (cmAdr : ℤ) (rsCm : ℚ) (chCm : ChangeOver) (kls : List ℕ) :
    ∀ st : BuilderSt,
      (builderProcessGroup cmAdr rsCm chCm kls st).ptclLocal.length
        = st.ptclLocal.length := by
  induction kls with
  | nil => intro st; rfl
  | cons i rest ih =>
    intro st
    show (builderProcessGroup cmAdr rsCm chCm rest (builderStep cmAdr rsCm chCm st i)).ptclLocal.length = _
    rw [ih, builderStep_local_length]

theorem bpg_sys_length (cmAdr : ℤ) (rsCm : ℚ) (chCm : ChangeOver) (kls : List ℕ) :
    ∀ st : BuilderSt,
      (builderProcessGroup cmAdr rsCm chCm kls st).sys.length = st.sys.length := by
  induction kls with
  | nil => intro st; rfl
  | cons i rest ih =>
    intro st
    show (builderProcessGroup cmAdr rsCm chCm rest (builderStep cmAdr rsCm chCm st i)).sys.length = _
    rw [ih, builderStep_sys_length]

theorem bpg_adrOf (cmAdr : ℤ) (rsCm : ℚ) (chCm : ChangeOver) (kls : List ℕ) :
    ∀ (st : BuilderSt) (j : ℕ),
      builderAdrOf (builderProcessGroup cmAdr rsCm chCm kls st) j = builderAdrOf st j := by
  induction kls with
  | nil => intro st j; rfl
  | cons i rest ih =>
    intro st j
    show builderAdrOf (builderProcessGroup cmAdr rsCm chCm rest (builderStep cmAdr rsCm chCm st i)) j = _
    rw [ih, builderStep_adrOf]

theorem bpg_local_getD_not_mem (cmAdr : ℤ) (rsCm : ℚ) (chCm : ChangeOver) (kls : List ℕ) :
    ∀ (st : BuilderSt) (kl : ℕ), kl ∉ kls →
      (builderProcessGroup cmAdr rsCm chCm kls st).ptclLocal.getD kl pzero
        = st.ptclLocal.getD kl pzero := by
  induction kls with
  | nil => intro st kl _; rfl
  | cons i rest ih =>
    intro st kl h
    show (builderProcessGroup cmAdr rsCm chCm rest (builderStep cmAdr rsCm chCm st i)).ptclLocal.getD kl pzero = _
    rw [ih _ _ (fun hm => h (List.mem_cons_of_mem i hm)),
      builderStep_local_getD_ne cmAdr rsCm chCm st i (fun he => h (by rw [he]; exact List.mem_cons_self i rest))]

theorem bpg_sys_not_target (cmAdr : ℤ) (rsCm : ℚ) (chCm : ChangeOver) (kls : List ℕ) :
    ∀ (st : BuilderSt) (a : ℕ),
      (∀ i ∈ kls, ¬(0 ≤ builderAdrOf st i ∧ (builderAdrOf st i).toNat = a)) →
      (builderProcessGroup cmAdr rsCm chCm kls st).sys.getD a pzero
        = st.sys.getD a pzero := by
  induction kls with
  | nil => intro st a _; rfl
  | cons i rest ih =>
    intro st a h
    show (builderProcessGroup cmAdr rsCm chCm rest (builderStep cmAdr rsCm chCm st i)).sys.getD a pzero = _
    rw [ih _ _ (fun j hj => by
        rw [builderStep_adrOf]
        exact h j (List.mem_cons_of_mem i hj)),
      builderStep_sys_getD_not cmAdr rsCm chCm st i (h i (List.mem_cons_self i rest))]

theorem bpg_nRemote (cmAdr : ℤ) (rsCm : ℚ) (chCm : ChangeOver) (kls : List ℕ) :
    ∀ st : BuilderSt,
      (builderProcessGroup cmAdr rsCm chCm kls st).nRemote
        = st.nRemote + kls.countP (fun i => decide (builderAdrOf st i < 0)) := by
  induction kls with
  | nil => intro st; simp [builderProcessGroup]
  | cons i rest ih =>
    intro st
    show (builderProcessGroup cmAdr rsCm chCm rest (builderStep cmAdr rsCm chCm st i)).nRemote = _
    rw [ih, builderStep_nRemote, List.countP_cons]
    have hcong : rest.countP (fun j => decide (builderAdrOf (builderStep cmAdr rsCm chCm st i) j < 0))
        = rest.countP (fun j => decide (builderAdrOf st j < 0)) := by
      refine List.countP_congr (fun j _ => ?_)
      rw [builderStep_adrOf]
    rw [hcong]
    by_cases hi : builderAdrOf st i < 0
    · simp [hi]
      omega
    · simp [hi]

theorem bpg_member (cmAdr : ℤ) (rsCm : ℚ) (chCm : ChangeOver) (kls : List ℕ) :
    ∀ (st : BuilderSt) (kl : ℕ),
    kl ∈ kls → kls.Nodup →
    (∀ i ∈ kls, i < st.ptclLocal.length) →
    (∀ i ∈ kls, 0 ≤ builderAdrOf st i → (builderAdrOf st i).toNat < st.sys.length) →
    (∀ i ∈ kls, ∀ j ∈ kls, i ≠ j → 0 ≤ builderAdrOf st i → 0 ≤ builderAdrOf st j →
        (builderAdrOf st i).toNat ≠ (builderAdrOf st j).toNat) →
    (builderProcessGroup cmAdr rsCm chCm kls st).ptclLocal.getD kl pzero
        = builderMemberUpdate cmAdr rsCm chCm (st.ptclLocal.getD kl pzero)
    ∧ (0 ≤ builderAdrOf st kl →
        (builderProcessGroup cmAdr rsCm chCm kls st).sys.getD (builderAdrOf st kl).toNat pzero
          = builderMemberUpdate cmAdr rsCm chCm
              (st.sys.getD (builderAdrOf st kl).toNat pzero)) := by
  induction kls with
  | nil => intro st kl hmem; exact absurd hmem (List.not_mem_nil kl)
  | cons i rest ih =>
    intro st kl hmem hnd hlen hsys hdist
    have hnd' := List.nodup_cons.mp hnd
    by_cases hki : kl = i
    · subst hki
      constructor
      · show (builderProcessGroup cmAdr rsCm chCm rest (builderStep cmAdr rsCm chCm st kl)).ptclLocal.getD kl pzero = _
        rw [bpg_local_getD_not_mem cmAdr rsCm chCm rest _ kl hnd'.1]
        exact builderStep_local_getD_self cmAdr rsCm chCm st kl
          (hlen kl (List.mem_cons_self kl rest))
      · intro h0
        show (builderProcessGroup cmAdr rsCm chCm rest (builderStep cmAdr rsCm chCm st kl)).sys.getD _ pzero = _
        rw [bpg_sys_not_target cmAdr rsCm chCm rest _ _ (fun j hj hcon => by
          rw [builderStep_adrOf] at hcon
          have hne : kl ≠ j := fun he => hnd'.1 (he ▸ hj)
          exact hdist kl (List.mem_cons_self kl rest) j (List.mem_cons_of_mem kl hj)
            hne h0 hcon.1 hcon.2.symm)]
        exact builderStep_sys_getD_self cmAdr rsCm chCm st kl h0
          (hsys kl (List.mem_cons_self kl rest) h0)
    · have hkr : kl ∈ rest := by
        rcases List.mem_cons.mp hmem with he | hr
        · exact absurd he hki
        · exact hr
      have hih := ih (builderStep cmAdr rsCm chCm st i) kl hkr hnd'.2
        (fun j hj => by
          rw [builderStep_local_length]
          exact hlen j (List.mem_cons_of_mem i hj))
        (fun j hj h0 => by
          rw [builderStep_adrOf, builderStep_sys_length]
          rw [builderStep_adrOf] at h0
          exact hsys j (List.mem_cons_of_mem i hj) h0)
        (fun j hj j2 hj2 hne h0 h02 => by
          rw [builderStep_adrOf, builderStep_adrOf]
          rw [builderStep_adrOf] at h0 h02
          exact hdist j (List.mem_cons_of_mem i hj) j2 (List.mem_cons_of_mem i hj2) hne h0 h02)
      constructor
      · show (builderProcessGroup cmAdr rsCm chCm rest (builderStep cmAdr rsCm chCm st i)).ptclLocal.getD kl pzero = _
        rw [hih.1, builderStep_local_getD_ne cmAdr rsCm chCm st i hki]
      · intro h0
        show (builderProcessGroup cmAdr rsCm chCm rest (builderStep cmAdr rsCm chCm st i)).sys.getD _ pzero = _
        have hadr' : builderAdrOf (builderStep cmAdr rsCm chCm st i) kl = builderAdrOf st kl :=
          builderStep_adrOf cmAdr rsCm chCm st i kl
        have h0' : 0 ≤ builderAdrOf (builderStep cmAdr rsCm chCm st i) kl := by rw [hadr']; exact h0
        have := hih.2 h0'
        rw [hadr'] at this
        rw [this, builderStep_sys_getD_not cmAdr rsCm chCm st i (fun hcon => by
          have hne : i ≠ kl := fun he => hki he.symm
          exact hdist i (List.mem_cons_self i rest) kl (List.mem_cons_of_mem i hkr)
            hne hcon.1 h0 hcon.2)]

/-- Claim C4 - confirmed: after the builder's member loop, every member slot
of the local buffer holds status equal to minus the c.m. store address, its
pre-grouping mass in mass_bk and zero live mass; every locally owned member
gets the same treatment in its global-store mirror; remote members are
counted in the remote diagnostic and no store slot outside the owned
members' addresses is mutated. -/
theorem c4_member_bookkeeping (cmAdr : ℤ) (rsCm : ℚ) (chCm : ChangeOver) (kls : List ℕ)
    (st : BuilderSt)
    (hnd : kls.Nodup)
    (hlen : ∀ i ∈ kls, i < st.ptclLocal.length)
    (hsys : ∀ i ∈ kls, 0 ≤ builderAdrOf st i → (builderAdrOf st i).toNat < st.sys.length)
    (hdist : ∀ i ∈ kls, ∀ j ∈ kls, i ≠ j → 0 ≤ builderAdrOf st i → 0 ≤ builderAdrOf st j →
        (builderAdrOf st i).toNat ≠ (builderAdrOf st j).toNat) :
    (∀ kl ∈ kls,
      ((builderProcessGroup cmAdr rsCm chCm kls st).ptclLocal.getD kl pzero).status
          = -(cmAdr : ℚ)
      ∧ ((builderProcessGroup cmAdr rsCm chCm kls st).ptclLocal.getD kl pzero).mass_bk
          = (st.ptclLocal.getD kl pzero).mass
      ∧ ((builderProcessGroup cmAdr rsCm chCm kls st).ptclLocal.getD kl pzero).mass = 0
      ∧ (0 ≤ builderAdrOf st kl →
          ((builderProcessGroup cmAdr rsCm chCm kls st).sys.getD
              (builderAdrOf st kl).toNat pzero).status = -(cmAdr : ℚ)
          ∧ ((builderProcessGroup cmAdr rsCm chCm kls st).sys.getD
              (builderAdrOf st kl).toNat pzero).mass_bk
              = (st.sys.getD (builderAdrOf st kl).toNat pzero).mass
          ∧ ((builderProcessGroup cmAdr rsCm chCm kls st).sys.getD
              (builderAdrOf st kl).toNat pzero).mass = 0))
    ∧ (builderProcessGroup cmAdr rsCm chCm kls st).nRemote
        = st.nRemote + kls.countP (fun i => decide (builderAdrOf st i < 0))
    ∧ (∀ a : ℕ, (∀ i ∈ kls, ¬(0 ≤ builderAdrOf st i ∧ (builderAdrOf st i).toNat = a)) →
        (builderProcessGroup cmAdr rsCm chCm kls st).sys.getD a pzero
          = st.sys.getD a pzero) := by
  refine ⟨fun kl hkl => ?_, bpg_nRemote cmAdr rsCm chCm kls st,
    fun a ha => bpg_sys_not_target cmAdr rsCm chCm kls st a ha⟩
  have hm := bpg_member cmAdr rsCm chCm kls st kl hkl hnd hlen hsys hdist
  refine ⟨?_, ?_, ?_, fun h0 => ?_⟩
  · rw [hm.1]; exact bmu_status cmAdr rsCm chCm _
  · rw [hm.1]; exact bmu_mass_bk cmAdr rsCm chCm _
  · rw [hm.1]; exact bmu_mass cmAdr rsCm chCm _
  · have h2 := hm.2 h0
    exact ⟨by rw [h2]; exact bmu_status cmAdr rsCm chCm _,
      by rw [h2]; exact bmu_mass_bk cmAdr rsCm chCm _,
      by rw [h2]; exact bmu_mass cmAdr rsCm chCm _⟩

/-- Witness for c4_member_bookkeeping on a two-member group with one owned
and one remote member. -/
theorem c4_member_bookkeeping_witness :
    ((builderProcessGroup 1 5 chCmW [0, 1] stBW).ptclLocal.getD 0 pzero).status
      = -((1 : ℤ) : ℚ) :=
  (((c4_member_bookkeeping 1 5 chCmW [0, 1] stBW (by decide) (by decide) (by decide)
      (by decide)).1) 0 (by decide)).1

/-- Claim C6 - confirmed: in the builder's member loop, a member whose
committed inner changeover radius differs from the c.m. one gets exactly
r_scale_next = cm inner radius / member inner radius staged while the
committed radii stay untouched, and its search radius is raised to the
maximum of its old value and the c.m. search radius; a member with the same
inner radius keeps changeover state and search radius unchanged.  The same
holds for a locally owned member's global-store mirror. -/
theorem c6_changeover_staging (cmAdr : ℤ) (rsCm : ℚ) (chCm : ChangeOver) (kls : List ℕ)
    (st : BuilderSt)
    (hnd : kls.Nodup)
    (hlen : ∀ i ∈ kls, i < st.ptclLocal.length)
    (hsys : ∀ i ∈ kls, 0 ≤ builderAdrOf st i → (builderAdrOf st i).toNat < st.sys.length)
    (hdist : ∀ i ∈ kls, ∀ j ∈ kls, i ≠ j → 0 ≤ builderAdrOf st i → 0 ≤ builderAdrOf st j →
        (builderAdrOf st i).toNat ≠ (builderAdrOf st j).toNat) :
    ∀ kl ∈ kls,
      ((st.ptclLocal.getD kl pzero).changeover.getRin ≠ chCm.getRin →
        ((builderProcessGroup cmAdr rsCm chCm kls st).ptclLocal.getD kl pzero).changeover.r_in
            = (st.ptclLocal.getD kl pzero).changeover.r_in
        ∧ ((builderProcessGroup cmAdr rsCm chCm kls st).ptclLocal.getD kl pzero).changeover.r_out
            = (st.ptclLocal.getD kl pzero).changeover.r_out
        ∧ ((builderProcessGroup cmAdr rsCm chCm kls st).ptclLocal.getD kl pzero).changeover.r_scale_next
            = chCm.getRin / (st.ptclLocal.getD kl pzero).changeover.getRin
        ∧ ((builderProcessGroup cmAdr rsCm chCm kls st).ptclLocal.getD kl pzero).r_search
            = max (st.ptclLocal.getD kl pzero).r_search rsCm)
      ∧ ((st.ptclLocal.getD kl pzero).changeover.getRin = chCm.getRin →
        ((builderProcessGroup cmAdr rsCm chCm kls st).ptclLocal.getD kl pzero).changeover
            = (st.ptclLocal.getD kl pzero).changeover
        ∧ ((builderProcessGroup cmAdr rsCm chCm kls st).ptclLocal.getD kl pzero).r_search
            = (st.ptclLocal.getD kl pzero).r_search)
      ∧ (0 ≤ builderAdrOf st kl →
        ((st.sys.getD (builderAdrOf st kl).toNat pzero).changeover.getRin ≠ chCm.getRin →
          ((builderProcessGroup cmAdr rsCm chCm kls st).sys.getD
              (builderAdrOf st kl).toNat pzero).changeover.r_scale_next
            = chCm.getRin / (st.sys.getD (builderAdrOf st kl).toNat pzero).changeover.getRin
          ∧ ((builderProcessGroup cmAdr rsCm chCm kls st).sys.getD
              (builderAdrOf st kl).toNat pzero).r_search
            = max (st.sys.getD (builderAdrOf st kl).toNat pzero).r_search rsCm)
        ∧ ((st.sys.getD (builderAdrOf st kl).toNat pzero).changeover.getRin = chCm.getRin →
          ((builderProcessGroup cmAdr rsCm chCm kls st).sys.getD
              (builderAdrOf st kl).toNat pzero).changeover
            = (st.sys.getD (builderAdrOf st kl).toNat pzero).changeover)) := by
  intro kl hkl
  have hm := bpg_member cmAdr rsCm chCm kls st kl hkl hnd hlen hsys hdist
  refine ⟨fun hne => ?_, fun heq => ?_, fun h0 => ?_⟩
  · have hc := bmu_changeover_ne cmAdr rsCm chCm (st.ptclLocal.getD kl pzero) hne
    rw [hm.1, hc.1]
    exact ⟨rfl, rfl, rfl, hc.2⟩
  · have hc := bmu_changeover_eq cmAdr rsCm chCm (st.ptclLocal.getD kl pzero) heq
    rw [hm.1]
    exact ⟨hc.1, hc.2⟩
  · have h2 := hm.2 h0
    refine ⟨fun hne => ?_, fun heq => ?_⟩
    · have hc := bmu_changeover_ne cmAdr rsCm chCm
        (st.sys.getD (builderAdrOf st kl).toNat pzero) hne
      rw [h2, hc.1]
      exact ⟨rfl, hc.2⟩
    · have hc := bmu_changeover_eq cmAdr rsCm chCm
        (st.sys.getD (builderAdrOf st kl).toNat pzero) heq
      rw [h2]
      exact hc.1

/-- Witness for c6_changeover_staging: the owned member with inner radius 1
against a c.m. inner radius 2 stages the multiplier 2/1. -/
theorem c6_changeover_staging_witness :
    ((builderProcessGroup 1 5 chCmW [0, 1] stBW).ptclLocal.getD 0 pzero).changeover.r_scale_next
      = chCmW.getRin / (stBW.ptclLocal.getD 0 pzero).changeover.getRin :=
  (((c6_changeover_staging 1 5 chCmW [0, 1] stBW (by decide) (by decide) (by decide)
      (by decide)) 0 (by decide)).1
    (by norm_num [stBW, pzero, chCmW, ChangeOver.getRin])).2.2.1

theorem allOne_getD {l : List Particle}
    (h : ∀ p ∈ l, p.changeover.r_scale_next = 1) (j : ℕ) :
    (l.getD j pzero).changeover.r_scale_next = 1 := by
  rcases Nat.lt_or_ge j l.length with hj | hj
  · rw [List.getD_eq_getElem _ _ hj]
    exact h _ (List.getElem_mem hj)
  · rw [List.getD_eq_default _ _ hj]
    rfl

theorem allOne_getE {l : List Particle}
    (h : ∀ p ∈ l, p.changeover.r_scale_next = 1) (j : ℕ) :
    ((l[j]?).getD pzero).changeover.r_scale_next = 1 := by
  have hg := allOne_getD h j
  rwa [List.getD_eq_getElem?_getD] at hg

theorem foldl_fixed_of_mem {α β : Type} (f : α → β → α) (b : α) (l : List β)
    (h : ∀ x ∈ l, f b x = b) : l.foldl f b = b := by
  induction l with
  | nil => rfl
  | cons a t ih =>
    rw [List.foldl_cons, h a (List.mem_cons_self a t)]
    exact ih (fun x hx => h x (List.mem_cons_of_mem a hx))

theorem commit_particle_id {p : Particle} (h : p.changeover.r_scale_next = 1) :
    ({ p with changeover := p.changeover.updateWithRScale } : Particle) = p := by
  obtain ⟨m, po, v, a, pt, rs, stt, mb, idp, ao, ri, ro, rs2⟩ := p
  simp only at h
  subst h
  simp [ChangeOver.updateWithRScale]

theorem coArtiInnerOrb_id (env : Env) (k kj : ℕ) {sys : List Particle}
    (hsys : ∀ p ∈ sys, p.changeover.r_scale_next = 1) :
    coArtiInnerOrb env k false kj sys = sys := by
  simp only [coArtiInnerOrb]
  have h1 : decide ((sys.getD (kj + offsetOrb env.n_split) pzero).changeover.r_scale_next ≠ 1)
      = false := by
    simp [allOne_getD hsys, allOne_getE hsys]
  rw [h1]
  simp

theorem coArtiOneK_id (env : Env) (gs : List ℕ) (hardList : List Particle) (k : ℕ)
    {sys : List Particle}
    (hsys : ∀ p ∈ sys, p.changeover.r_scale_next = 1)
    (hhard : ∀ p ∈ hardList, p.changeover.r_scale_next = 1) :
    coArtiOneK env gs hardList k sys = sys := by
  have hck : decide ((sys.getD k pzero).changeover.r_scale_next ≠ 1) = false := by
    simp [allOne_getD hsys, allOne_getE hsys]
  simp only [coArtiOneK, hck]
  rw [foldl_fixed_of_mem _ _ _ (fun kj _ => coArtiInnerOrb_id env k kj hsys)]
  refine foldl_fixed_of_mem _ _ _ (fun pj hpj => ?_)
  have h2 : decide (pj.changeover.r_scale_next ≠ 1) = false := by
    simp [hhard pj hpj]
  rw [h2]
  simp

theorem coArtiPhase_id (env : Env) (gs : List ℕ) (hardList : List Particle)
    {sys : List Particle}
    (hsys : ∀ p ∈ sys, p.changeover.r_scale_next = 1)
    (hhard : ∀ p ∈ hardList, p.changeover.r_scale_next = 1) :
    coArtiPhase env gs hardList sys = sys := by
  simp only [coArtiPhase]
  refine foldl_fixed_of_mem _ _ _ (fun js _ => ?_)
  refine foldl_fixed_of_mem _ _ _ (fun k _ => ?_)
  exact coArtiOneK_id env gs hardList k hsys hhard

theorem coNgbFold_id (env : Env) (adr : ℕ) (nbs : List ℕ) {sys : List Particle}
    (hsys : ∀ p ∈ sys, p.changeover.r_scale_next = 1) :
    coNgbFold env adr false nbs sys = sys := by
  simp only [coNgbFold]
  refine foldl_fixed_of_mem _ _ _ (fun a _ => ?_)
  have h1 : decide ((sys.getD a pzero).changeover.r_scale_next ≠ 1) = false := by
    simp [allOne_getD hsys, allOne_getE hsys]
  rw [h1]
  simp

theorem coRealStep_id (env : Env) (ngb : ℕ → List ℕ) (st : CoSt)
    (hsys : ∀ p ∈ st.sys, p.changeover.r_scale_next = 1)
    (hhard : ∀ p ∈ st.hard, p.changeover.r_scale_next = 1) (j : ℕ) :
    coRealStep env ngb st j = st := by
  obtain ⟨sys, hard⟩ := st
  simp only at hsys hhard
  simp only [coRealStep]
  have hb : decide
      ((sys.getD ((hard.getD j pzero).adr_org).toNat pzero).changeover.r_scale_next ≠ 1)
      = false := by
    simp [allOne_getD hsys, allOne_getE hsys]
  have hcommitH : updAt hard j
      (fun p => { p with changeover := p.changeover.updateWithRScale }) = hard :=
    updAt_eq_self _ _ _ (commit_particle_id (allOne_getD hhard j))
  have hcommitS : updAt sys ((hard.getD j pzero).adr_org).toNat
      (fun p => { p with changeover := p.changeover.updateWithRScale }) = sys :=
    updAt_eq_self _ _ _ (commit_particle_id (allOne_getD hsys _))
  split_ifs with h0
  · rw [hb, coNgbFold_id env _ _ hsys, hcommitS, hcommitH]
  · rw [hcommitH]

theorem coSendStep_id (env : Env) (ngb : ℕ → List ℕ) {sys : List Particle}
    (hsys : ∀ p ∈ sys, p.changeover.r_scale_next = 1) (a : ℕ) :
    coSendStep env ngb sys a = sys := by
  simp only [coSendStep]
  have hb : decide ((sys.getD a pzero).changeover.r_scale_next ≠ 1) = false := by
    simp [allOne_getD hsys, allOne_getE hsys]
  rw [hb, coNgbFold_id env a (ngb a) hsys,
    updAt_eq_self _ _ _ (commit_particle_id (allOne_getD hsys a))]

theorem changeOverUpdate_id (env : Env) (ngb : ℕ → List ℕ) (gs sendAdrs : List ℕ)
    (st : CoSt)
    (hsys : ∀ p ∈ st.sys, p.changeover.r_scale_next = 1)
    (hhard : ∀ p ∈ st.hard, p.changeover.r_scale_next = 1) :
    correctForceForChangeOverUpdate env ngb gs sendAdrs st = st := by
  obtain ⟨sys, hard⟩ := st
  simp only at hsys hhard
  simp only [correctForceForChangeOverUpdate]
  rw [coArtiPhase_id env gs hard hsys hhard]
  rw [foldl_fixed_of_mem _ _ _ (fun j _ => coRealStep_id env ngb ⟨sys, hard⟩ hsys hhard j)]
  rw [foldl_fixed_of_mem _ _ _ (fun a _ => coSendStep_id env ngb hsys a)]

theorem coRealStep_hard_length (env : Env) (ngb : ℕ → List ℕ) (st : CoSt) (j : ℕ) :
    (coRealStep env ngb st j).hard.length = st.hard.length := by
  simp only [coRealStep]
  exact length_updAt _ _ _

theorem coRealStep_hard_getD_ne (env : Env) (ngb : ℕ → List ℕ) (st : CoSt) (j : ℕ)
    {i : ℕ} (h : i ≠ j) :
    (coRealStep env ngb st j).hard.getD i pzero = st.hard.getD i pzero := by
  simp only [coRealStep]
  exact getD_updAt_ne _ _ h

theorem coRealStep_hard_scale (env : Env) (ngb : ℕ → List ℕ) (st : CoSt) (j : ℕ)
    (hj : j < st.hard.length) :
    ((coRealStep env ngb st j).hard.getD j pzero).changeover.r_scale_next = 1 := by
  show ((updAt st.hard j
      (fun p => { p with changeover := p.changeover.updateWithRScale })).getD j
      pzero).changeover.r_scale_next = 1
  rw [getD_updAt_eq _ _ hj]
  rfl

theorem realFold_hard_length (env : Env) (ngb : ℕ → List ℕ) :
    ∀ (m : ℕ) (st : CoSt),
      ((List.range m).foldl (coRealStep env ngb) st).hard.length = st.hard.length := by
  intro m
  induction m with
  | zero => intro st; rfl
  | succ k ih =>
    intro st
    rw [List.range_succ, List.foldl_append]
    simp only [List.foldl_cons, List.foldl_nil]
    rw [coRealStep_hard_length, ih]

theorem realFold_committed (env : Env) (ngb : ℕ → List ℕ) :
    ∀ (m : ℕ) (st : CoSt) (i : ℕ), i < m → i < st.hard.length →
      (((List.range m).foldl (coRealStep env ngb) st).hard.getD i
          pzero).changeover.r_scale_next = 1 := by
  intro m
  induction m with
  | zero => intro st i h _; omega
  | succ k ih =>
    intro st i him hlen
    rw [List.range_succ, List.foldl_append]
    simp only [List.foldl_cons, List.foldl_nil]
    rcases Nat.lt_or_ge i k with hik | hik
    · rw [coRealStep_hard_getD_ne _ _ _ _ (by omega)]
      exact ih st i hik hlen
    · have hieq : i = k := by omega
      subst hieq
      exact coRealStep_hard_scale env ngb _ i (by rw [realFold_hard_length]; exact hlen)

theorem changeOverUpdate_commits_hard (env : Env) (ngb : ℕ → List ℕ)
    (gs sendAdrs : List ℕ) (st : CoSt) :
    ∀ p ∈ (correctForceForChangeOverUpdate env ngb gs sendAdrs st).hard,
      p.changeover.r_scale_next = 1 := by
  intro p hp
  simp only [correctForceForChangeOverUpdate] at hp
  rcases List.mem_iff_getElem.mp hp with ⟨i, hilen, hie⟩
  have hfl := realFold_hard_length env ngb st.hard.length
    { st with sys := coArtiPhase env gs st.hard st.sys }
  have hlen' : i < st.hard.length := by
    rw [hfl] at hilen
    exact hilen
  have hcom := realFold_committed env ngb st.hard.length
    { st with sys := coArtiPhase env gs st.hard st.sys } i hlen' hlen'
  rw [List.getD_eq_getElem _ _ (by rw [hfl]; exact hlen')] at hcom
  rw [← hie]
  exact hcom

set_option maxHeartbeats 2000000 in
theorem passC5_eval (a : ℚ) : passC5 (stC5a a) = stC5a (a + 1/36) := by
  have h3 : (3 : ℤ).toNat = 3 := rfl
  norm_num [passC5, correctForceForChangeOverUpdate, coArtiPhase, coArtiOneK, coArtiInnerOrb,
    coNgbFold, coRealStep, coSendStep, calcAccChangeOverCorrection, ChangeOver.setR,
    ChangeOver.updateWithRScale, ChangeOver.getRin, ChangeOver.getRout, accWModel, rampW,
    updAt, envC5, stC5a, pzero, Vec3.dot, List.range_succ, offsetOrb, offsetCM, offsetTT,
    h3, List.set_cons_zero, List.set_cons_succ]
  simp only [Vec3.zero_def, Vec3.mk_add, Vec3.mk_sub, Vec3.mk_smul]
  norm_num [List.set_cons_zero, List.set_cons_succ]

/-- Claim C5 - counterexample.  A staged multiplier on an orbital artificial
particle is never committed by the pass, so on a concrete state the second
back-to-back invocation is not a no-op: it changes the orbital particle's
acceleration again. -/
theorem c5_counterexample : passC5 (passC5 (stC5a 0)) ≠ passC5 (stC5a 0) := by
  rw [passC5_eval 0, passC5_eval (0 + 1/36)]
  intro h
  have hx := congrArg (fun s : CoSt => (s.sys.getD 1 pzero).acc.x) h
  norm_num [stC5a, pzero] at hx

/-- Claim C5 - amended and proved: the changeover-transition pass is a no-op
when every particle (including artificial particles and tree neighbors)
already carries multiplier 1, and one pass commits the multiplier of every
particle of the cluster's hard buffer; artificial particles are never
committed by the pass, so back-to-back idempotence needs their multipliers
to be 1 already. -/
theorem c5_amended (env : Env) (ngb : ℕ → List ℕ) (gs sendAdrs : List ℕ) (st : CoSt) :
    ((∀ p ∈ st.sys, p.changeover.r_scale_next = 1) →
      (∀ p ∈ st.hard, p.changeover.r_scale_next = 1) →
      correctForceForChangeOverUpdate env ngb gs sendAdrs st = st)
    ∧ (∀ p ∈ (correctForceForChangeOverUpdate env ngb gs sendAdrs st).hard,
        p.changeover.r_scale_next = 1) :=
  ⟨fun hsys hhard => changeOverUpdate_id env ngb gs sendAdrs st hsys hhard,
    changeOverUpdate_commits_hard env ngb gs sendAdrs st⟩

/-- Witness for c5_amended on a concrete committed state. -/
theorem c5_amended_witness :
    correctForceForChangeOverUpdate envC5 (fun _ => []) [] [] (CoSt.mk [] [])
      = CoSt.mk [] [] :=
  (c5_amended envC5 (fun _ => []) [] [] (CoSt.mk [] [])).1
    (by intro p hp; exact absurd hp (List.not_mem_nil p))
    (by intro p hp; exact absurd hp (List.not_mem_nil p))

/-- Witness for c10_drive_one_cluster on a one-element buffer. -/
theorem c10_drive_one_cluster_witness :
    ((driveForOneCluster (fun p _ => p.mass) 1 [pzero]).getD 0 pzero).pos
      = (([pzero] : List Particle).getD 0 pzero).pos
        + (1 : ℚ) • (([pzero] : List Particle).getD 0 pzero).vel :=
  (c10_drive_one_cluster (fun p _ => p.mass) 1 [pzero] 0 (by decide)).1

end HardInt
